import Mathlib

/-!
Verification of the MMM attribution and budget-optimization engine.

The definitions below are a shallow embedding of the analysis pipeline
(`analysis-runner.server.ts`) and of the data aligner
(`data-merger.server.ts`).  JavaScript numbers are modelled as exact
rationals (`ℚ`); `Math.round` is `jround` (round half toward +∞, as in
JS); `Math.max`/`Math.min` are `max`/`min`; the `|| 0` guard on record
access is lookup with default `0`.
-/

/-- JS `Math.round`: round half toward positive infinity. -/
def jround (x : ℚ) : ℚ := (⌊x + 1/2⌋ : ℤ)

theorem jround_le (x : ℚ) : jround x ≤ x + 1/2 := Int.floor_le _

theorem lt_jround (x : ℚ) : x - 1/2 < jround x := by
  have h := Int.lt_floor_add_one (x + 1/2)
  unfold jround
  linarith

theorem abs_jround_sub_le (x : ℚ) : |jround x - x| ≤ 1/2 := by
  have h1 := jround_le x
  have h2 := lt_jround x
  rw [abs_le]
  constructor <;> linarith

/-- JS `Math.max(...list)` for a nonempty list (the empty case never
occurs on the guarded paths). -/
def listMax : List ℚ → ℚ
  | [] => 0
  | h :: t => t.foldl max h

theorem foldl_max_replicate (m : ℕ) (c : ℚ) :
    (List.replicate m c).foldl max c = c := by
  induction m with
  | zero => rfl
  | succ k ih =>
    show ((List.replicate k c).foldl max (max c c)) = c
    rwa [max_self]

theorem listMax_replicate (n : ℕ) (c : ℚ) (hn : 0 < n) :
    listMax (List.replicate n c) = c := by
  obtain ⟨m, rfl⟩ := Nat.exists_eq_succ_of_ne_zero hn.ne'
  exact foldl_max_replicate m c

/-!
### Saturation estimator

Embedding of `estimateSaturation(dailyCosts, dailyContributions, totalCost)`.
-/

def meanOf (y : List ℚ) : ℚ := y.sum / (y.length : ℚ)

/-- The `contribMean` of `estimateSaturation`: note the divisor is the
length of the cost series, as in the source. -/
def contribMeanOf (dailyCosts dailyContributions : List ℚ) : ℚ :=
  dailyContributions.sum / (dailyCosts.length : ℚ)

def covCCOf (dailyCosts dailyContributions : List ℚ) : ℚ :=
  ((List.range dailyCosts.length).map (fun i =>
    (dailyCosts.getD i 0 - meanOf dailyCosts) *
      (dailyContributions.getD i 0 - contribMeanOf dailyCosts dailyContributions))).sum

def varCostOf (dailyCosts : List ℚ) : ℚ :=
  ((List.range dailyCosts.length).map (fun i =>
    (dailyCosts.getD i 0 - meanOf dailyCosts) ^ 2)).sum

def elasticityOf (dailyCosts dailyContributions : List ℚ) : ℚ :=
  if 0 < varCostOf dailyCosts ∧ 0 < meanOf dailyCosts ∧
      0 < contribMeanOf dailyCosts dailyContributions then
    (covCCOf dailyCosts dailyContributions / varCostOf dailyCosts) *
      (meanOf dailyCosts / contribMeanOf dailyCosts dailyContributions)
  else (1 : ℚ)/2

/-- The elasticity-to-saturation mapping of `estimateSaturation`:
clamp the elasticity to [0.01, 1.5], map it through `(1 − e)·100`,
clamp to [5, 95] and round. -/
def clampSat (e : ℚ) : ℚ :=
  jround (max 5 (min 95 ((1 - max (1/100) (min e (3/2))) * 100)))

def estimateSaturation (dailyCosts dailyContributions : List ℚ)
    (totalCost : ℚ) : ℚ :=
  if dailyCosts.length = 0 ∨ totalCost ≤ 0 then 0
  else if listMax dailyCosts ≤ 0 then 0
  else clampSat (elasticityOf dailyCosts dailyContributions)

/-!
### Accuracy evaluator

Embedding of `computeR2(y, yPred)`.  `ssTotOf` is the denominator
`Σ(yᵢ−ȳ)²`; it is zero exactly when the dependent variable has no
variance.
-/

def ssTotOf (y : List ℚ) : ℚ :=
  ((List.range y.length).map (fun i => (y.getD i 0 - meanOf y) ^ 2)).sum

def ssResOf (y yPred : List ℚ) : ℚ :=
  ((List.range y.length).map (fun i => (y.getD i 0 - yPred.getD i 0) ^ 2)).sum

def computeR2 (y yPred : List ℚ) : ℚ :=
  if 0 < ssTotOf y then 1 - ssResOf y yPred / ssTotOf y else 0

theorem sum_sq_nonneg (l : List ℚ) (f : ℚ → ℚ) :
    0 ≤ (l.map (fun i => (f i) ^ 2)).sum := by
  apply List.sum_nonneg
  intro x hx
  obtain ⟨i, _, rfl⟩ := List.mem_map.mp hx
  positivity

theorem clampSat_range (e : ℚ) : 5 ≤ clampSat e ∧ clampSat e ≤ 95 := by
  set s : ℚ := max 5 (min 95 ((1 - max (1/100) (min e (3/2))) * 100)) with hs
  have h5 : (5 : ℚ) ≤ s := le_max_left _ _
  have h95 : s ≤ 95 := by
    rw [hs]
    apply max_le (by norm_num)
    exact min_le_left _ _
  constructor
  · have h : (5 : ℤ) ≤ ⌊s + 1/2⌋ := Int.le_floor.mpr (by push_cast; linarith)
    unfold clampSat jround
    exact_mod_cast h
  · have h : ⌊s + 1/2⌋ ≤ ⌊(95 : ℚ) + 1/2⌋ := Int.floor_le_floor (by linarith)
    have h2 : ⌊(95 : ℚ) + 1/2⌋ = 95 := by norm_num [Int.floor_eq_iff]
    rw [h2] at h
    unfold clampSat jround
    exact_mod_cast h

/-- C9: for every input, the saturation estimator returns either exactly 0
(the insufficient-evidence branches) or a value in the closed interval
[5, 95]; no other output is possible. -/
theorem estimateSaturation_range (dailyCosts dailyContributions : List ℚ)
    (totalCost : ℚ) :
    estimateSaturation dailyCosts dailyContributions totalCost = 0 ∨
      (5 ≤ estimateSaturation dailyCosts dailyContributions totalCost ∧
        estimateSaturation dailyCosts dailyContributions totalCost ≤ 95) := by
  unfold estimateSaturation
  split
  · exact Or.inl rfl
  · split
    · exact Or.inl rfl
    · exact Or.inr (clampSat_range _)

theorem jround_eq_int (x : ℚ) (z : ℤ) (h1 : (z : ℚ) ≤ x + 1/2)
    (h2 : x + 1/2 < (z : ℚ) + 1) : jround x = (z : ℚ) := by
  unfold jround
  have h : ⌊x + 1/2⌋ = z := Int.floor_eq_iff.mpr ⟨h1, h2⟩
  rw [h]

theorem clampSat_half : clampSat (1/2) = 50 := by
  have h : max (5:ℚ) (min 95 ((1 - max (1/100) (min (1/2) (3/2))) * 100)) = 50 := by
    norm_num [min_def, max_def]
  rw [clampSat, h]
  have h50 := jround_eq_int 50 50 (by norm_num) (by norm_num)
  simpa using h50

theorem meanOf_replicate (n : ℕ) (c : ℚ) (hn : 0 < n) :
    meanOf (List.replicate n c) = c := by
  unfold meanOf
  rw [List.length_replicate, List.sum_replicate, nsmul_eq_mul]
  have hq : ((n:ℚ)) ≠ 0 := by exact_mod_cast hn.ne'
  field_simp

theorem varCostOf_replicate (n : ℕ) (c : ℚ) (hn : 0 < n) :
    varCostOf (List.replicate n c) = 0 := by
  unfold varCostOf
  apply List.sum_eq_zero
  intro x hx
  obtain ⟨i, hi, rfl⟩ := List.mem_map.mp hx
  rw [List.length_replicate] at hi
  have hig : (List.replicate n c).getD i 0 = c := by
    simp [List.getD, List.getElem?_replicate, List.mem_range.mp hi]
  rw [meanOf_replicate n c hn, hig]
  ring

theorem elasticityOf_const (n : ℕ) (c : ℚ) (contribs : List ℚ) (hn : 0 < n) :
    elasticityOf (List.replicate n c) contribs = 1/2 := by
  unfold elasticityOf
  rw [if_neg]
  rintro ⟨h0, -⟩
  rw [varCostOf_replicate n c hn] at h0
  exact lt_irrefl 0 h0

/-- C2 (amended): for a channel whose daily spend series is a positive
constant (positive total spend), the saturation estimator does not take
an insufficient-evidence branch: the result lies in [5, 95] and in
particular is never 0.  The guards depend only on the length, the total
and the maximum of the series, so a constant positive series always
reaches the clamped elasticity path, whose every outcome lies in
[5, 95]; this bound does not depend on which branch of the elasticity
computation is taken, so it is robust to rounding in the variance of a
constant series. -/
theorem estimateSaturation_const_spend (n : ℕ) (c : ℚ) (contribs : List ℚ)
    (hn : 0 < n) (hc : 0 < c) :
    5 ≤ estimateSaturation (List.replicate n c) contribs ((n : ℚ) * c) ∧
      estimateSaturation (List.replicate n c) contribs ((n : ℚ) * c) ≤ 95 ∧
      estimateSaturation (List.replicate n c) contribs ((n : ℚ) * c) ≠ 0 := by
  have hguard : estimateSaturation (List.replicate n c) contribs ((n : ℚ) * c) =
      clampSat (elasticityOf (List.replicate n c) contribs) := by
    unfold estimateSaturation
    rw [if_neg, if_neg]
    · rw [listMax_replicate n c hn]
      exact not_le.mpr hc
    · rw [List.length_replicate]
      push_neg
      have hnq : (0:ℚ) < (n:ℚ) := by exact_mod_cast hn
      exact ⟨hn.ne', mul_pos hnq hc⟩
  rw [hguard]
  obtain ⟨h5, h95⟩ := clampSat_range (elasticityOf (List.replicate n c) contribs)
  refine ⟨h5, h95, ?_⟩
  intro h0
  rw [h0] at h5
  norm_num at h5

/-- C2 counterexample: a 2-day channel with constant positive spend 1
(positive total spend 2, zero variance) makes the estimator return 50 —
a value inside [5, 95] — not the claimed insufficient-evidence value 0. -/
theorem estimateSaturation_const_spend_counterexample :
    estimateSaturation [1, 1] [2, 2] 2 = 50 ∧
      estimateSaturation [1, 1] [2, 2] 2 ≠ 0 ∧
      5 ≤ estimateSaturation [1, 1] [2, 2] 2 ∧
      estimateSaturation [1, 1] [2, 2] 2 ≤ 95 := by
  have h2 : ([1, 1] : List ℚ) = List.replicate 2 1 := rfl
  have he : elasticityOf [1, 1] [2, 2] = 1/2 := by
    rw [h2]
    exact elasticityOf_const 2 1 [2, 2] (by norm_num)
  have hs : estimateSaturation [1, 1] [2, 2] 2 = 50 := by
    unfold estimateSaturation
    rw [if_neg (by norm_num), if_neg, he]
    · exact clampSat_half
    · show ¬ listMax [1, 1] ≤ 0
      norm_num [listMax]
  refine ⟨hs, ?_, ?_, ?_⟩ <;> rw [hs] <;> norm_num

theorem ssTotOf_nonneg (y : List ℚ) : 0 ≤ ssTotOf y := by
  apply List.sum_nonneg
  intro x hx
  obtain ⟨i, _, rfl⟩ := List.mem_map.mp hx
  positivity

theorem ssResOf_nonneg (y yPred : List ℚ) : 0 ≤ ssResOf y yPred := by
  apply List.sum_nonneg
  intro x hx
  obtain ⟨i, _, rfl⟩ := List.mem_map.mp hx
  positivity

/-- C3 (amended): `computeR2` returns 0 whenever the dependent variable
has zero variance (`Σ(yᵢ−ȳ)² = 0`), and for nonzero variance the result
is at most 1; the claimed lower bound 0 does not hold in general because
`olsRegression` can return a non-least-squares fit when a near-singular
pivot is skipped. -/
theorem computeR2_zero_var_and_le_one (y yPred : List ℚ) :
    (ssTotOf y = 0 → computeR2 y yPred = 0) ∧
      (ssTotOf y ≠ 0 → computeR2 y yPred ≤ 1) := by
  constructor
  · intro h0
    unfold computeR2
    rw [if_neg]
    rw [h0]
    exact lt_irrefl 0
  · intro hne
    have hpos : 0 < ssTotOf y := lt_of_le_of_ne (ssTotOf_nonneg y) (Ne.symm hne)
    unfold computeR2
    rw [if_pos hpos]
    have hres := ssResOf_nonneg y yPred
    have hdiv : 0 ≤ ssResOf y yPred / ssTotOf y := div_nonneg hres hpos.le
    linarith

/-!
### Regression engine

Embedding of `olsRegression(X, y)`: form the normal equations
`XᵗX β = Xᵗy` and solve by Gaussian elimination with partial pivoting,
skipping any column whose pivot magnitude is below `1e-12` (the matrix
is represented as a list of rows; out-of-range indexing, which the
source never performs, defaults to `0`/`[]`).
-/

/-- In-place `mapIdx` on a list starting at index `s` (models the
`for (j = …)` loops that update row entries by index). -/
def mapIdxQ {α : Type} (f : ℕ → α → α) : ℕ → List α → List α
  | _, [] => []
  | s, a :: as => f s a :: mapIdxQ f (s + 1) as

theorem mapIdxQ_length {α : Type} (f : ℕ → α → α) (s : ℕ) (l : List α) :
    (mapIdxQ f s l).length = l.length := by
  induction l generalizing s with
  | nil => rfl
  | cons a as ih => simp [mapIdxQ, ih]

theorem mapIdxQ_getD {α : Type} (f : ℕ → α → α) (s i : ℕ) (l : List α)
    (d : α) (hi : i < l.length) :
    (mapIdxQ f s l).getD i d = f (s + i) (l.getD i d) := by
  induction l generalizing s i with
  | nil => simp at hi
  | cons a as ih =>
    cases i with
    | zero => simp [mapIdxQ]
    | succ k =>
      have hk : k < as.length := by simpa using hi
      have := ih (s + 1) k hk
      simp only [mapIdxQ, List.getD_cons_succ, this]
      ring_nf

theorem mapIdxQ_getD_ge {α : Type} (f : ℕ → α → α) (s i : ℕ) (l : List α)
    (d : α) (hi : l.length ≤ i) : (mapIdxQ f s l).getD i d = d := by
  apply List.getD_eq_default
  rw [mapIdxQ_length]
  exact hi

theorem getD_ge {α : Type} (l : List α) (i : ℕ) (d : α)
    (hi : l.length ≤ i) : l.getD i d = d := List.getD_eq_default l d hi

/-- JS array destructuring swap `[aug[i], aug[j]] = [aug[j], aug[i]]`. -/
def swapRows (m : List (List ℚ)) (i j : ℕ) : List (List ℚ) :=
  let ri := m.getD i []
  let rj := m.getD j []
  (m.set i rj).set j ri

/-- The partial-pivoting search: the row index in `[col+1, p)` with the
largest absolute value in column `col`, starting from `col` itself and
updating only on a strictly larger value. -/
def pivotRowIdx (aug : List (List ℚ)) (col p : ℕ) : ℕ :=
  (((List.range p).drop (col + 1)).foldl
    (fun acc row =>
      if |(aug.getD row []).getD col 0| > acc.2 then
        (row, |(aug.getD row []).getD col 0|)
      else acc)
    (col, |(aug.getD col []).getD col 0|)).1

/-- One column step of the elimination: pivot search, row swap, the
near-singular skip (`|pivot| < 1e-12` ⇒ `continue`), pivot-row
normalization from column `col` on, and elimination of every other row. -/
def elimStep (p : ℕ) (aug : List (List ℚ)) (col : ℕ) : List (List ℚ) :=
  let aug1 := swapRows aug col (pivotRowIdx aug col p)
  let pivot := (aug1.getD col []).getD col 0
  if |pivot| < 1/10^12 then aug1
  else
    let prow := mapIdxQ (fun j v => if col ≤ j then v / pivot else v) 0
      (aug1.getD col [])
    let aug2 := aug1.set col prow
    mapIdxQ (fun r row =>
      if r = col then row
      else
        mapIdxQ (fun j v =>
          if col ≤ j then v - row.getD col 0 * prow.getD j 0 else v) 0 row)
      0 aug2

def xtxOf (X : List (List ℚ)) (p : ℕ) : List (List ℚ) :=
  (List.range p).map (fun i => (List.range p).map (fun j =>
    ((List.range X.length).map (fun k =>
      (X.getD k []).getD i 0 * (X.getD k []).getD j 0)).sum))

def xtyOf (X : List (List ℚ)) (y : List ℚ) (p : ℕ) : List ℚ :=
  (List.range p).map (fun i =>
    ((List.range X.length).map (fun k =>
      (X.getD k []).getD i 0 * y.getD k 0)).sum)

def olsRegression (X : List (List ℚ)) (y : List ℚ) : List ℚ :=
  let p := (X.headD []).length
  let aug0 := (List.range p).map (fun i =>
    ((xtxOf X p).getD i []) ++ [(xtyOf X y p).getD i 0])
  let augF := (List.range p).foldl (elimStep p) aug0
  augF.map (fun row => row.getD p 0)

/-- Fitted values `ŷ = X·β` (`yPred` in the source). -/
def fittedOf (X : List (List ℚ)) (beta : List ℚ) : List ℚ :=
  X.map (fun row =>
    ((List.range row.length).map (fun j => row.getD j 0 * beta.getD j 0)).sum)

/-- C3 counterexample: on the 2-day dataset with near-collinear design
`X = [[1, 2+2⁻²⁵], [1, 2−2⁻²⁵]]` and `y = [0, 1]` (nonzero variance in
y), the elimination's second pivot is exactly `−2⁻⁵⁰`, below the `1e-12`
tolerance, so the column is skipped and the returned fit gives
`R² < 0`, outside the claimed interval [0, 1].  Every entry of the
normal equations and every elimination step is a dyadic rational far
inside binary64 range, so the double-precision program takes the same
skip with the same pivot, coefficients and fitted values, and its R²
(≈ −3.8·10⁻¹⁵) is negative as well. -/
theorem computeR2_interval_counterexample :
    ssTotOf [0, 1] ≠ 0 ∧
      computeR2 [0, 1] (fittedOf [[1, 2 + 1/2^25], [1, 2 - 1/2^25]]
        (olsRegression [[1, 2 + 1/2^25], [1, 2 - 1/2^25]] [0, 1])) < 0 := by
  constructor
  · norm_num [ssTotOf, meanOf, List.range_succ]
  · norm_num [olsRegression, xtxOf, xtyOf, elimStep, swapRows, pivotRowIdx,
      mapIdxQ, List.range_succ, List.foldl, List.getD_cons_zero, List.getD_cons_succ,
      abs_of_nonneg, abs_of_nonpos, fittedOf, computeR2, ssTotOf, ssResOf, meanOf]

/-!
### Contribution decomposition (startAnalysis, lines 282–345)

A merged row is an association list from variable keys to numbers; the
source's `(row[k] as number) || 0` is lookup with default `0`.  The
pipeline is parametrized by the merged rows, the channel list derived
from the `_cost` columns, and the dependent variable key.
-/

abbrev MRow := List (String × ℚ)

def lookupOr0 (k : String) (r : MRow) : ℚ := ((r.lookup k).getD 0)

def yOf (rows : List MRow) (depVar : String) : List ℚ :=
  rows.map (lookupOr0 depVar)

def designOf (rows : List MRow) (channels : List String) : List (List ℚ) :=
  rows.map (fun r => 1 :: channels.map (fun ch => lookupOr0 (ch ++ "_cost") r))

def betaOf (rows : List MRow) (channels : List String) (depVar : String) :
    List ℚ :=
  olsRegression (designOf rows channels) (yOf rows depVar)

def interceptOf (rows : List MRow) (channels : List String)
    (depVar : String) : ℚ :=
  (betaOf rows channels depVar).getD 0 0

def coeffAt (rows : List MRow) (channels : List String) (depVar : String)
    (i : ℕ) : ℚ :=
  (betaOf rows channels depVar).getD (i + 1) 0

def channelSpendAt (rows : List MRow) (channels : List String) (i : ℕ) : ℚ :=
  (rows.map (lookupOr0 ((channels.getD i "") ++ "_cost"))).sum

def totalRevenueOf (rows : List MRow) (depVar : String) : ℚ :=
  (yOf rows depVar).sum

def totalSpendOf (rows : List MRow) (channels : List String) : ℚ :=
  ((List.range channels.length).map (channelSpendAt rows channels)).sum

def baseRevenueOf (rows : List MRow) (channels : List String)
    (depVar : String) : ℚ :=
  max 0 (interceptOf rows channels depVar * (rows.length : ℚ))

def basePctOf (rows : List MRow) (channels : List String)
    (depVar : String) : ℚ :=
  if 0 < totalRevenueOf rows depVar then
    baseRevenueOf rows channels depVar / totalRevenueOf rows depVar * 100
  else 0

def mediaRevenueOf (rows : List MRow) (channels : List String)
    (depVar : String) : ℚ :=
  totalRevenueOf rows depVar - baseRevenueOf rows channels depVar

def rawContribAt (rows : List MRow) (channels : List String)
    (depVar : String) (i : ℕ) : ℚ :=
  max 0 (coeffAt rows channels depVar i * channelSpendAt rows channels i)

def rawSumOf (rows : List MRow) (channels : List String)
    (depVar : String) : ℚ :=
  ((List.range channels.length).map (rawContribAt rows channels depVar)).sum

def scaleFactorOf (rows : List MRow) (channels : List String)
    (depVar : String) : ℚ :=
  if 0 < rawSumOf rows channels depVar ∧ 0 < mediaRevenueOf rows channels depVar
  then mediaRevenueOf rows channels depVar / rawSumOf rows channels depVar
  else 1

/-- The per-channel scaled contribution, rounded for the report. -/
def contribAt (rows : List MRow) (channels : List String) (depVar : String)
    (i : ℕ) : ℚ :=
  jround (rawContribAt rows channels depVar i * scaleFactorOf rows channels depVar)

def contribPctAt (rows : List MRow) (channels : List String) (depVar : String)
    (i : ℕ) : ℚ :=
  if 0 < totalRevenueOf rows depVar then
    jround (rawContribAt rows channels depVar i * scaleFactorOf rows channels depVar /
      totalRevenueOf rows depVar * 1000) / 10
  else 0

def sumContribPct (rows : List MRow) (channels : List String)
    (depVar : String) : ℚ :=
  ((List.range channels.length).map (contribPctAt rows channels depVar)).sum

/-- `summary.basePct`: the baseline share rounded to one decimal. -/
def basePctRounded (rows : List MRow) (channels : List String)
    (depVar : String) : ℚ :=
  jround (basePctOf rows channels depVar * 10) / 10

theorem jround_tenth_err (x : ℚ) : |jround (x * 10) / 10 - x| ≤ 1/20 := by
  have h := abs_jround_sub_le (x * 10)
  have key : jround (x * 10) / 10 - x = (jround (x * 10) - x * 10) / 10 := by
    ring
  rw [key, abs_div]
  have h10 : |(10:ℚ)| = 10 := by norm_num
  rw [h10]
  linarith

theorem abs_sum_sub_sum_le {α : Type} (l : List α) (f g : α → ℚ) (c : ℚ)
    (h : ∀ a ∈ l, |f a - g a| ≤ c) :
    |(l.map f).sum - (l.map g).sum| ≤ l.length * c := by
  induction l with
  | nil => simp
  | cons a as ih =>
    simp only [List.map_cons, List.sum_cons, List.length_cons]
    have h1 := h a (List.mem_cons_self a as)
    have h2 := ih (fun b hb => h b (List.mem_cons_of_mem a hb))
    have heq : f a + (as.map f).sum - (g a + (as.map g).sum) =
        (f a - g a) + ((as.map f).sum - (as.map g).sum) := by ring
    have tri := abs_add (f a - g a) ((as.map f).sum - (as.map g).sum)
    rw [heq]
    push_cast
    linarith

theorem totalRevenue_pos (rows : List MRow) (channels : List String)
    (depVar : String) (hm : 0 < mediaRevenueOf rows channels depVar) :
    0 < totalRevenueOf rows depVar := by
  have hb : 0 ≤ baseRevenueOf rows channels depVar := le_max_left 0 _
  unfold mediaRevenueOf at hm
  linarith

/-- C1 (amended): whenever media revenue is positive AND the raw
contribution sum is positive, the scale factor `media/Σraw` makes the
scaled contributions sum exactly to media revenue, and the reported
`contributionPct` values sum to `100 − basePct` within the rounding
tolerance `(k+1)/20` for `k` channels; the scale factor defaults to 1
when the raw sum or media revenue is non-positive. -/
theorem contributionPct_sum (rows : List MRow) (channels : List String)
    (depVar : String)
    (hm : 0 < mediaRevenueOf rows channels depVar)
    (hr : 0 < rawSumOf rows channels depVar) :
    (((List.range channels.length).map (fun i =>
        rawContribAt rows channels depVar i *
          scaleFactorOf rows channels depVar)).sum =
      mediaRevenueOf rows channels depVar) ∧
    |sumContribPct rows channels depVar -
        (100 - basePctRounded rows channels depVar)| ≤
      ((channels.length : ℚ) + 1) / 20 ∧
    (∀ (rows2 : List MRow) (channels2 : List String) (depVar2 : String),
      rawSumOf rows2 channels2 depVar2 ≤ 0 ∨
        mediaRevenueOf rows2 channels2 depVar2 ≤ 0 →
      scaleFactorOf rows2 channels2 depVar2 = 1) := by
  have hs : scaleFactorOf rows channels depVar =
      mediaRevenueOf rows channels depVar / rawSumOf rows channels depVar := by
    unfold scaleFactorOf
    rw [if_pos ⟨hr, hm⟩]
  have hsum : (((List.range channels.length).map (fun i =>
      rawContribAt rows channels depVar i *
        scaleFactorOf rows channels depVar)).sum =
      mediaRevenueOf rows channels depVar) := by
    rw [List.sum_map_mul_right, hs]
    show rawSumOf rows channels depVar * _ = _
    exact mul_div_cancel₀ _ hr.ne'
  refine ⟨hsum, ?_, ?_⟩
  · have htot := totalRevenue_pos rows channels depVar hm
    set T := totalRevenueOf rows depVar with hT
    set B := baseRevenueOf rows channels depVar with hB
    set M := mediaRevenueOf rows channels depVar with hM
    -- per-channel rounding error
    have hpct : ∀ i ∈ List.range channels.length,
        |contribPctAt rows channels depVar i -
          rawContribAt rows channels depVar i *
            scaleFactorOf rows channels depVar / T * 100| ≤ 1/20 := by
      intro i _
      unfold contribPctAt
      rw [if_pos htot]
      have he : rawContribAt rows channels depVar i *
          scaleFactorOf rows channels depVar / T * 1000 =
          (rawContribAt rows channels depVar i *
            scaleFactorOf rows channels depVar / T * 100) * 10 := by ring
      rw [he]
      exact jround_tenth_err _
    have hA : |sumContribPct rows channels depVar -
        ((List.range channels.length).map (fun i =>
          rawContribAt rows channels depVar i *
            scaleFactorOf rows channels depVar / T * 100)).sum| ≤
        (channels.length : ℚ) * (1/20) := by
      have := abs_sum_sub_sum_le (List.range channels.length)
        (contribPctAt rows channels depVar)
        (fun i => rawContribAt rows channels depVar i *
          scaleFactorOf rows channels depVar / T * 100) (1/20) hpct
      simpa [sumContribPct] using this
    -- the exact percentages sum to 100·M/T
    have hexact : ((List.range channels.length).map (fun i =>
        rawContribAt rows channels depVar i *
          scaleFactorOf rows channels depVar / T * 100)).sum =
        M / T * 100 := by
      have hfac : ∀ i, rawContribAt rows channels depVar i *
          scaleFactorOf rows channels depVar / T * 100 =
          rawContribAt rows channels depVar i *
            (scaleFactorOf rows channels depVar / T * 100) := by
        intro i; ring
      calc ((List.range channels.length).map (fun i =>
            rawContribAt rows channels depVar i *
              scaleFactorOf rows channels depVar / T * 100)).sum
          = ((List.range channels.length).map (fun i =>
            rawContribAt rows channels depVar i *
              (scaleFactorOf rows channels depVar / T * 100))).sum := by
            apply congrArg
            exact List.map_congr_left (fun i _ => hfac i)
        _ = rawSumOf rows channels depVar *
              (scaleFactorOf rows channels depVar / T * 100) := by
            rw [List.sum_map_mul_right]
            rfl
        _ = M / T * 100 := by
            rw [hs]
            field_simp
            ring
    -- baseline share and its rounding error
    have hbase : basePctOf rows channels depVar = B / T * 100 := by
      unfold basePctOf
      rw [if_pos htot]
    have hBrnd : |basePctRounded rows channels depVar -
        basePctOf rows channels depVar| ≤ 1/20 := by
      unfold basePctRounded
      have he : basePctOf rows channels depVar * 10 =
          basePctOf rows channels depVar * 10 := rfl
      exact jround_tenth_err _
    -- the two exact shares sum to 100
    have hid : M / T * 100 + B / T * 100 = 100 := by
      have hMB : M + B = T := by
        rw [hM, hB, hT]
        unfold mediaRevenueOf
        ring
      field_simp
      linarith [hMB]
    have tri := abs_add
      (sumContribPct rows channels depVar -
        ((List.range channels.length).map (fun i =>
          rawContribAt rows channels depVar i *
            scaleFactorOf rows channels depVar / T * 100)).sum)
      (basePctRounded rows channels depVar - basePctOf rows channels depVar)
    have hcomb : sumContribPct rows channels depVar -
        (100 - basePctRounded rows channels depVar) =
        (sumContribPct rows channels depVar -
          ((List.range channels.length).map (fun i =>
            rawContribAt rows channels depVar i *
              scaleFactorOf rows channels depVar / T * 100)).sum) +
        (basePctRounded rows channels depVar - basePctOf rows channels depVar) := by
      rw [hexact, hbase]
      linarith [hid]
    rw [hcomb]
    calc |_ + _| ≤ _ := tri
      _ ≤ (channels.length : ℚ) * (1/20) + 1/20 := by linarith [hA, hBrnd]
      _ = ((channels.length : ℚ) + 1) / 20 := by ring
  · intro rows2 channels2 depVar2 hdisj
    unfold scaleFactorOf
    rw [if_neg]
    rintro ⟨h1, h2⟩
    rcases hdisj with h | h
    · exact absurd h1 (not_lt.mpr h)
    · exact absurd h2 (not_lt.mpr h)

theorem strq_acost : ("a" ++ "_cost" : String) = "a_cost" := rfl

theorem strq_beq1 : (("a_cost" : String) == "a_cost") = true := rfl

theorem strq_beq2 : (("net_sales" : String) == "a_cost") = false := rfl

theorem strq_beq3 : (("net_sales" : String) == "net_sales") = true := rfl

/-- Witness dataset for C1: one channel `a`, two days, `net_sales = 2·a_cost`. -/
def wRowsC1 : List MRow :=
  [[("a_cost", 1), ("net_sales", 2)], [("a_cost", 2), ("net_sales", 4)]]

theorem contributionPct_sum_witness :
    0 < mediaRevenueOf wRowsC1 ["a"] "net_sales" ∧
      0 < rawSumOf wRowsC1 ["a"] "net_sales" ∧
      |sumContribPct wRowsC1 ["a"] "net_sales" -
          (100 - basePctRounded wRowsC1 ["a"] "net_sales")| ≤
        ((([("a" : String)].length : ℕ) : ℚ) + 1) / 20 := by
  have hdes : designOf wRowsC1 ["a"] = [[1, 1], [1, 2]] := by
    norm_num [designOf, wRowsC1, lookupOr0, List.lookup, strq_acost, strq_beq1, strq_beq2, strq_beq3]
  have hy : yOf wRowsC1 "net_sales" = [2, 4] := by
    norm_num [yOf, wRowsC1, lookupOr0, List.lookup, strq_acost, strq_beq1, strq_beq2, strq_beq3]
  have hbeta : betaOf wRowsC1 ["a"] "net_sales" = [0, 2] := by
    rw [betaOf, hdes, hy]
    norm_num [olsRegression, xtxOf, xtyOf, elimStep, swapRows, pivotRowIdx,
      mapIdxQ, List.range_succ, List.foldl, List.getD_cons_zero,
      List.getD_cons_succ, abs_of_nonneg, abs_of_nonpos]
  have hspend : channelSpendAt wRowsC1 ["a"] 0 = 3 := by
    norm_num [channelSpendAt, wRowsC1, lookupOr0, List.lookup, strq_acost, strq_beq1, strq_beq2, strq_beq3]
  have hm : 0 < mediaRevenueOf wRowsC1 ["a"] "net_sales" := by
    unfold mediaRevenueOf totalRevenueOf baseRevenueOf interceptOf
    rw [hbeta, hy]
    norm_num [wRowsC1, max_def]
  have hr : 0 < rawSumOf wRowsC1 ["a"] "net_sales" := by
    unfold rawSumOf rawContribAt coeffAt
    rw [hbeta]
    norm_num [List.range_succ, hspend, max_def]
  exact ⟨hm, hr, (contributionPct_sum wRowsC1 ["a"] "net_sales" hm hr).2.1⟩

/-- Counterexample dataset for C1: one channel with near-constant
negative spend.  The second elimination pivot is exactly `2⁻⁵⁰`, below
the 1e-12 tolerance, so the column is skipped, returning `β = [0, 1]`;
the positive coefficient times the negative total spend −4 clamps to a
raw contribution of 0, while media revenue is 1 > 0.  Every input and
every intermediate value of the run (normal equations, elimination,
totals, clamps, percentages) is a dyadic rational exactly representable
in binary64, so the double-precision program performs the identical
computation: it completes with media revenue 1, raw contribution sum 0,
Σ contributionPct = 0 and basePct = 0. -/
def ceRowsC1 : List MRow :=
  [[("a_cost", -(2 + 1/2^25 : ℚ)), ("net_sales", (1/2 - 2^25 : ℚ))],
   [("a_cost", -(2 - 1/2^25 : ℚ)), ("net_sales", (2^25 + 1/2 : ℚ))]]

theorem contributionPct_sum_counterexample :
    0 < mediaRevenueOf ceRowsC1 ["a"] "net_sales" ∧
      sumContribPct ceRowsC1 ["a"] "net_sales" = 0 ∧
      basePctRounded ceRowsC1 ["a"] "net_sales" = 0 ∧
      ¬(|sumContribPct ceRowsC1 ["a"] "net_sales" -
          (100 - basePctRounded ceRowsC1 ["a"] "net_sales")| ≤
        ((([("a" : String)].length : ℕ) : ℚ) + 1) / 20) := by
  have hdes : designOf ceRowsC1 ["a"] =
      [[1, -(2 + 1/2^25 : ℚ)], [1, -(2 - 1/2^25 : ℚ)]] := by
    norm_num [designOf, ceRowsC1, lookupOr0, List.lookup, strq_acost, strq_beq1, strq_beq2, strq_beq3]
  have hy : yOf ceRowsC1 "net_sales" = [(1/2 - 2^25 : ℚ), (2^25 + 1/2 : ℚ)] := by
    norm_num [yOf, ceRowsC1, lookupOr0, List.lookup, strq_acost, strq_beq1, strq_beq2, strq_beq3]
  have hbeta : betaOf ceRowsC1 ["a"] "net_sales" = [0, 1] := by
    rw [betaOf, hdes, hy]
    norm_num [olsRegression, xtxOf, xtyOf, elimStep, swapRows, pivotRowIdx,
      mapIdxQ, List.range_succ, List.foldl, List.getD_cons_zero,
      List.getD_cons_succ, abs_of_nonneg, abs_of_nonpos]
  have hspend : channelSpendAt ceRowsC1 ["a"] 0 = -4 := by
    norm_num [channelSpendAt, ceRowsC1, lookupOr0, List.lookup, strq_acost, strq_beq1, strq_beq2, strq_beq3]
  have htotal : totalRevenueOf ceRowsC1 "net_sales" = 1 := by
    unfold totalRevenueOf
    rw [hy]
    norm_num
  have hbase : baseRevenueOf ceRowsC1 ["a"] "net_sales" = 0 := by
    unfold baseRevenueOf interceptOf
    rw [hbeta]
    norm_num [max_def]
  have hmedia : mediaRevenueOf ceRowsC1 ["a"] "net_sales" = 1 := by
    unfold mediaRevenueOf
    rw [htotal, hbase]
    norm_num
  have hraw : rawContribAt ceRowsC1 ["a"] "net_sales" 0 = 0 := by
    unfold rawContribAt coeffAt
    rw [hbeta, hspend]
    norm_num [max_def]
  have hrawSum : rawSumOf ceRowsC1 ["a"] "net_sales" = 0 := by
    unfold rawSumOf
    norm_num [List.range_succ, hraw]
  have hpct : sumContribPct ceRowsC1 ["a"] "net_sales" = 0 := by
    unfold sumContribPct contribPctAt
    rw [htotal]
    norm_num [List.range_succ, hraw, jround]
  have hbpr : basePctRounded ceRowsC1 ["a"] "net_sales" = 0 := by
    unfold basePctRounded basePctOf
    rw [htotal, hbase]
    norm_num [jround]
  refine ⟨by rw [hmedia]; norm_num, hpct, hbpr, ?_⟩
  rw [hpct, hbpr]
  norm_num

/-!
### Budget optimizer (startAnalysis, lines 349–361)

The optimizer consumes each channel's raw (unrounded) total spend and
its reported marginal ROI; it is parametrized here by that list of
pairs `(spend, marginalRoi)`, covering every reachable `channelResults`.
`currentSpend` stores the rounded per-channel spend; the optimized
spend allocates the unrounded grand total proportionally to
`max(marginalRoi, 0.01)` and rounds.
-/

def optTotalRoi (l : List (ℚ × ℚ)) : ℚ :=
  (l.map (fun c => max c.2 (1/100))).sum

def optWeightAt (l : List (ℚ × ℚ)) (i : ℕ) : ℚ :=
  max (l.getD i (0, 0)).2 (1/100) / optTotalRoi l

def currentSpendTotal (l : List (ℚ × ℚ)) : ℚ :=
  (l.map (fun c => jround c.1)).sum

def optimizedSpendTotal (l : List (ℚ × ℚ)) : ℚ :=
  ((List.range l.length).map (fun i =>
    jround ((l.map Prod.fst).sum * optWeightAt l i))).sum

theorem sum_range_getD {α : Type} (l : List α) (f : α → ℚ) (d : α) :
    ((List.range l.length).map (fun i => f (l.getD i d))).sum = (l.map f).sum := by
  induction l with
  | nil => simp
  | cons a as ih =>
    rw [List.length_cons, List.range_succ_eq_map]
    simp only [List.map_cons, List.sum_cons, List.map_map, List.getD_cons_zero]
    have hcomp : (List.range as.length).map
        ((fun i => f ((a :: as).getD i d)) ∘ Nat.succ) =
        (List.range as.length).map (fun i => f (as.getD i d)) := by
      apply List.map_congr_left
      intro i _
      simp [List.getD_cons_succ]
    rw [hcomp, ih]

theorem optTotalRoi_pos (l : List (ℚ × ℚ)) (h : l ≠ []) : 0 < optTotalRoi l := by
  apply List.sum_pos
  · intro x hx
    obtain ⟨c, _, rfl⟩ := List.mem_map.mp hx
    calc (0:ℚ) < 1/100 := by norm_num
      _ ≤ max c.2 (1/100) := le_max_right _ _
  · simpa using h

/-- C6: for every nonempty channel list, the recommended budget conserves
the total within the per-channel rounding tolerance (`k` units for `k`
channels, each of `currentSpend` and `optimizedSpend` rounding once per
channel), and every channel's allocation share
`max(marginalRoi, 0.01) / Σ max(marginalRoi, 0.01)` is strictly positive. -/
theorem budget_conservation (l : List (ℚ × ℚ)) (h : l ≠ []) :
    |optimizedSpendTotal l - currentSpendTotal l| ≤ (l.length : ℚ) ∧
      ∀ i, i < l.length → 0 < optWeightAt l i := by
  have htot := optTotalRoi_pos l h
  constructor
  · set T : ℚ := (l.map Prod.fst).sum with hT
    have hexact : ((List.range l.length).map (fun i => T * optWeightAt l i)).sum
        = T := by
      have hfac : ∀ i, T * optWeightAt l i =
          max (l.getD i (0, 0)).2 (1/100) * (T / optTotalRoi l) := by
        intro i
        unfold optWeightAt
        ring
      calc ((List.range l.length).map (fun i => T * optWeightAt l i)).sum
          = ((List.range l.length).map (fun i =>
              max (l.getD i (0, 0)).2 (1/100) * (T / optTotalRoi l))).sum := by
            apply congrArg
            exact List.map_congr_left (fun i _ => hfac i)
        _ = ((List.range l.length).map (fun i =>
              max (l.getD i (0, 0)).2 (1/100))).sum * (T / optTotalRoi l) := by
            rw [List.sum_map_mul_right]
        _ = optTotalRoi l * (T / optTotalRoi l) := by
            rw [sum_range_getD l (fun c => max c.2 (1/100)) (0, 0)]
            rfl
        _ = T := mul_div_cancel₀ T htot.ne'
    have h1 : |optimizedSpendTotal l -
        ((List.range l.length).map (fun i => T * optWeightAt l i)).sum| ≤
        (List.range l.length).length * (1/2) := by
      exact abs_sum_sub_sum_le (List.range l.length)
        (fun i => jround (T * optWeightAt l i))
        (fun i => T * optWeightAt l i) (1/2)
        (fun i _ => abs_jround_sub_le _)
    have h2 : |currentSpendTotal l - T| ≤ l.length * (1/2) := by
      exact abs_sum_sub_sum_le l (fun c => jround c.1) Prod.fst (1/2)
        (fun c _ => abs_jround_sub_le _)
    rw [hexact] at h1
    rw [List.length_range] at h1
    have tri := abs_sub_le (optimizedSpendTotal l) T (currentSpendTotal l)
    have habs : |T - currentSpendTotal l| = |currentSpendTotal l - T| :=
      abs_sub_comm _ _
    rw [habs] at tri
    calc |optimizedSpendTotal l - currentSpendTotal l| ≤
          |optimizedSpendTotal l - T| + |currentSpendTotal l - T| := tri
      _ ≤ (l.length : ℚ) * (1/2) + (l.length : ℚ) * (1/2) := by linarith
      _ = (l.length : ℚ) := by ring
  · intro i _
    unfold optWeightAt
    apply div_pos _ htot
    calc (0:ℚ) < 1/100 := by norm_num
      _ ≤ max (l.getD i (0, 0)).2 (1/100) := le_max_right _ _

theorem budget_conservation_witness :
    ([((10 : ℚ), (2 : ℚ))] ≠ []) ∧
      |optimizedSpendTotal [((10 : ℚ), (2 : ℚ))] -
          currentSpendTotal [((10 : ℚ), (2 : ℚ))]| ≤
        (([((10 : ℚ), (2 : ℚ))].length : ℕ) : ℚ) ∧
      0 < optWeightAt [((10 : ℚ), (2 : ℚ))] 0 := by
  have h : ([((10 : ℚ), (2 : ℚ))] : List (ℚ × ℚ)) ≠ [] := by simp
  exact ⟨h, (budget_conservation [((10 : ℚ), (2 : ℚ))] h).1,
    (budget_conservation [((10 : ℚ), (2 : ℚ))] h).2 0 (by norm_num)⟩

/-!
### Analysis orchestrator (startAnalysis failure boundary)

The orchestrator's effects are modelled as a pure transition: the
analysis record starts in RUNNING; the merge result and the outcome of
the downstream computation (which may fail with a message, covering
"any later stage throws") determine the single terminal update.  The
record carries the stored results and error message; the function also
returns the `success` flag of the response value.
-/

inductive AnStatus : Type
  | RUNNING : AnStatus
  | COMPLETED : AnStatus
  | FAILED : AnStatus
deriving DecidableEq

structure AnRecord (R : Type) : Type where
  status : AnStatus
  results : Option R
  errorMsg : Option String

structure MergeOut : Type where
  success : Bool
  data : List MRow
  columns : List String

/-- Channel discovery from the merged columns: keys with the `_cost`
suffix, suffix stripped. -/
def channelsOf (cols : List String) : List String :=
  (cols.filter (fun c => c.endsWith "_cost")).map
    (fun c => (c.replace "_cost" ""))

/-- The orchestrator transition: guard failures and the downstream
outcome all collapse into one terminal record update; results are
attached only together with COMPLETED, in the same update. -/
def startAnalysisModel {R : Type} (merged : MergeOut)
    (compute : List MRow → List String → Except String R) :
    AnRecord R × Bool :=
  if merged.success = false ∨ merged.data.length = 0 then
    (⟨AnStatus.FAILED, none, some "データの統合に失敗しました"⟩, false)
  else if (channelsOf merged.columns).length = 0 then
    (⟨AnStatus.FAILED, none,
      some "広告チャネルデータが見つかりません（_cost列が必要です）"⟩, false)
  else
    match compute merged.data (channelsOf merged.columns) with
    | Except.error e => (⟨AnStatus.FAILED, none, some e⟩, false)
    | Except.ok r => (⟨AnStatus.COMPLETED, some r, none⟩, true)

/-- C5: the orchestrator is a total function of the merge result and the
downstream outcome (no exception escapes); the terminal state is always
COMPLETED or FAILED; an empty merged dataset, a failed merge, an empty
channel set, or a failing later stage each end in FAILED with an error
message and no stored results; results are stored exactly when the
status is COMPLETED (one atomic update), which is also when the
returned flag is `true`. -/
theorem startAnalysis_failure_boundary {R : Type} (merged : MergeOut)
    (compute : List MRow → List String → Except String R) :
    ((startAnalysisModel merged compute).1.status = AnStatus.COMPLETED ∨
      (startAnalysisModel merged compute).1.status = AnStatus.FAILED) ∧
    ((startAnalysisModel merged compute).1.results.isSome = true ↔
      (startAnalysisModel merged compute).1.status = AnStatus.COMPLETED) ∧
    ((startAnalysisModel merged compute).1.status = AnStatus.FAILED →
      (startAnalysisModel merged compute).1.errorMsg.isSome = true) ∧
    (merged.data = [] →
      (startAnalysisModel merged compute).1.status = AnStatus.FAILED) ∧
    (channelsOf merged.columns = [] →
      (startAnalysisModel merged compute).1.status = AnStatus.FAILED) ∧
    (∀ e, compute merged.data (channelsOf merged.columns) = Except.error e →
      (startAnalysisModel merged compute).1.status = AnStatus.FAILED) ∧
    ((startAnalysisModel merged compute).2 = true ↔
      (startAnalysisModel merged compute).1.status = AnStatus.COMPLETED) := by
  unfold startAnalysisModel
  by_cases h1 : merged.success = false ∨ merged.data.length = 0
  · rw [if_pos h1]
    simp
  · rw [if_neg h1]
    push_neg at h1
    have hd : merged.data ≠ [] := by
      intro hdata
      exact h1.2 (by rw [hdata]; rfl)
    by_cases h2 : (channelsOf merged.columns).length = 0
    · rw [if_pos h2]
      simp
    · rw [if_neg h2]
      have hch : channelsOf merged.columns ≠ [] := by
        intro hx
        exact h2 (by rw [hx]; rfl)
      rcases hc : compute merged.data (channelsOf merged.columns) with e | r
      · simp [hc, hd, hch]
      · simp [hc, hd, hch]

theorem startAnalysis_failure_boundary_witness :
    (startAnalysisModel ⟨true, [], []⟩
      (fun _ _ => (Except.ok 0 : Except String ℕ))).1.status =
      AnStatus.FAILED := by
  have h := startAnalysis_failure_boundary ⟨true, [], []⟩
    (fun _ _ => (Except.ok 0 : Except String ℕ))
  exact h.2.2.2.1 rfl

/-!
### Data aligner (mergeShopifyAndExcelData)

An observation is a `(date, variable, value)` triple; the flattened
observation list preserves the source iteration order, so the
`dateMap.get(dateKey)![variable] = value` insertions make the last
write win: `obsAt` folds from the left keeping the latest match.
Dates are ISO `yyyy-mm-dd` strings, on which JS string sort coincides
with the lexicographic linear order on `String`; the sort is modelled
by `insertionSort (· ≤ ·)`, which produces the unique `≤`-sorted
permutation of the deduplicated key list.
-/

structure DataPoint : Type where
  date : String
  key : String
  value : ℚ
deriving DecidableEq

/-- The value stored in `dateMap` for `(d, v)`: the last observation of
variable `v` on date `d` in iteration order, if any. -/
def obsAt (ps : List DataPoint) (d v : String) : Option ℚ :=
  ps.foldl (fun acc p => if p.date = d ∧ p.key = v then some p.value else acc)
    none

def datesOf (ps : List DataPoint) : List String :=
  List.insertionSort (fun a b => a ≤ b) ((ps.map (fun p => p.date)).dedup)

def varsOf (ps : List DataPoint) : List String :=
  List.insertionSort (fun a b => a ≤ b) ((ps.map (fun p => p.key)).dedup)

/-- The forward-fill (carry-forward) variable set. -/
def ffVars : List String :=
  ["net_sales", "orders", "sessions", "pageviews", "online_store_visitors",
   "new_customers", "returning_customers", "add_to_carts", "line_friends",
   "temperature"]

/-- The fill rule for one variable on one day: observed value if present;
else carry the last value (or 0 if none yet) for forward-fill variables;
else 0. -/
def fillVal (ps : List DataPoint) (lastV : String → Option ℚ)
    (d v : String) : ℚ :=
  match obsAt ps d v with
  | some x => x
  | none => if v ∈ ffVars then (lastV v).getD 0 else 0

def rowFor (ps : List DataPoint) (lastV : String → Option ℚ)
    (d : String) : List (String × ℚ) :=
  (varsOf ps).map (fun v => (v, fillVal ps lastV d v))

/-- The `lastValues` update after processing date `d`. -/
def stepLast (ps : List DataPoint) (d : String)
    (lastV : String → Option ℚ) : String → Option ℚ :=
  fun v =>
    match obsAt ps d v with
    | some x => some x
    | none => lastV v

def mergeLoop (ps : List DataPoint) :
    List String → (String → Option ℚ) → List (String × List (String × ℚ))
  | [], _ => []
  | d :: ds, lastV =>
    (d, rowFor ps lastV d) :: mergeLoop ps ds (stepLast ps d lastV)

/-- The merged output: one `(date, row)` per distinct date, ascending. -/
def mergedRows (ps : List DataPoint) : List (String × List (String × ℚ)) :=
  mergeLoop ps (datesOf ps) (fun _ => none)

/-- The most recent observation of `v` strictly before date `d` in the
sorted date list (`none` before the first observation). -/
def lastObsBefore (ps : List DataPoint) (d v : String) : Option ℚ :=
  (((datesOf ps).filter (fun e => decide (e < d) && (obsAt ps e v).isSome)).getLast?).bind
    (fun e => obsAt ps e v)

/-- The last observation of `v` within a date list `l` (used as the loop
invariant for `lastValues`). -/
def lastObsIn (ps : List DataPoint) (l : List String) (v : String) :
    Option ℚ :=
  ((l.filter (fun e => (obsAt ps e v).isSome)).getLast?).bind
    (fun e => obsAt ps e v)

theorem datesOf_sorted (ps : List DataPoint) :
    List.Sorted (fun a b => a ≤ b) (datesOf ps) :=
  List.sorted_insertionSort _ _

theorem datesOf_nodup (ps : List DataPoint) : (datesOf ps).Nodup :=
  (List.perm_insertionSort _ _).symm.nodup
    (List.nodup_dedup _)

theorem varsOf_nodup (ps : List DataPoint) : (varsOf ps).Nodup :=
  (List.perm_insertionSort _ _).symm.nodup
    (List.nodup_dedup _)

theorem mem_varsOf (ps : List DataPoint) (v : String) :
    v ∈ varsOf ps ↔ ∃ p ∈ ps, p.key = v := by
  unfold varsOf
  rw [(List.perm_insertionSort _ _).mem_iff, List.mem_dedup]
  constructor
  · intro h
    obtain ⟨p, hp, he⟩ := List.mem_map.mp h
    exact ⟨p, hp, he⟩
  · rintro ⟨p, hp, rfl⟩
    exact List.mem_map.mpr ⟨p, hp, rfl⟩

theorem mem_datesOf (ps : List DataPoint) (d : String) :
    d ∈ datesOf ps ↔ ∃ p ∈ ps, p.date = d := by
  unfold datesOf
  rw [(List.perm_insertionSort _ _).mem_iff, List.mem_dedup]
  constructor
  · intro h
    obtain ⟨p, hp, he⟩ := List.mem_map.mp h
    exact ⟨p, hp, he⟩
  · rintro ⟨p, hp, rfl⟩
    exact List.mem_map.mpr ⟨p, hp, rfl⟩

/-- `obsAt` keeps the value of the observation processed last: it is the
last element of the matching observations in iteration order. -/
theorem obsAt_eq_getLast (ps : List DataPoint) (d v : String) :
    obsAt ps d v =
      ((ps.filter (fun q => decide (q.date = d) && decide (q.key = v))).getLast?).map
        (fun q => q.value) := by
  induction ps using List.reverseRecOn with
  | nil => rfl
  | append_singleton l q ih =>
    rw [List.filter_append]
    unfold obsAt
    rw [List.foldl_append]
    show (if q.date = d ∧ q.key = v then some q.value else obsAt l d v) = _
    by_cases hq : q.date = d ∧ q.key = v
    · rw [if_pos hq]
      have hf : List.filter (fun q => decide (q.date = d) && decide (q.key = v)) [q] = [q] := by
        simp [List.filter, hq.1, hq.2]
      rw [hf, List.getLast?_concat]
      rfl
    · rw [if_neg hq]
      have hb : (decide (q.date = d) && decide (q.key = v)) = false := by
        cases hd : decide (q.date = d) <;> cases hk : decide (q.key = v) <;>
          simp_all [decide_eq_true_eq]
      have hf : List.filter (fun q => decide (q.date = d) && decide (q.key = v)) [q] = [] := by
        simp [List.filter, hb]
      rw [hf, List.append_nil, ih]

theorem lastObsIn_snoc (ps : List DataPoint) (pre : List String)
    (d v : String) :
    lastObsIn ps (pre ++ [d]) v =
      match obsAt ps d v with
      | some x => some x
      | none => lastObsIn ps pre v := by
  unfold lastObsIn
  rw [List.filter_append]
  cases ho : obsAt ps d v with
  | some x =>
    have hf : [d].filter (fun e => (obsAt ps e v).isSome) = [d] := by
      simp [List.filter, ho]
    rw [hf, List.getLast?_concat]
    simp [ho]
  | none =>
    have hf : [d].filter (fun e => (obsAt ps e v).isSome) = [] := by
      simp [List.filter, ho]
    rw [hf, List.append_nil]

theorem lastObsBefore_eq_lastObsIn (ps : List DataPoint)
    (pre ds : List String) (d v : String)
    (heq : datesOf ps = pre ++ d :: ds) :
    lastObsBefore ps d v = lastObsIn ps pre v := by
  have hsorted : List.Sorted (fun a b => a ≤ b) (pre ++ d :: ds) :=
    heq ▸ datesOf_sorted ps
  have hnodup : (pre ++ d :: ds).Nodup := heq ▸ datesOf_nodup ps
  have hpre : ∀ e ∈ pre, e < d := by
    intro e he
    have hle : e ≤ d :=
      (List.pairwise_append.mp hsorted).2.2 e he d (List.mem_cons_self d ds)
    have hne : e ≠ d := by
      intro hcon
    -- e ∈ pre and e ∈ d :: ds contradicts disjointness
      subst hcon
      exact (List.nodup_append.mp hnodup).2.2 he (List.mem_cons_self e ds)
    exact lt_of_le_of_ne hle hne
  have hpost : ∀ e ∈ d :: ds, ¬ (e < d) := by
    intro e he
    rcases List.mem_cons.mp he with rfl | hmem
    · exact lt_irrefl e
    · have hd : d ≤ e :=
        (List.rel_of_pairwise_cons (List.pairwise_append.mp hsorted).2.1) hmem
      exact not_lt.mpr hd
  unfold lastObsBefore
  rw [heq, List.filter_append]
  have h2 : (d :: ds).filter
      (fun e => decide (e < d) && (obsAt ps e v).isSome) = [] := by
    rw [List.filter_eq_nil_iff]
    intro e he
    simp [hpost e he]
  have h1 : pre.filter (fun e => decide (e < d) && (obsAt ps e v).isSome) =
      pre.filter (fun e => (obsAt ps e v).isSome) := by
    apply List.filter_congr
    intro e he
    simp [hpre e he]
  rw [h1, h2, List.append_nil]
  rfl

theorem fillVal_congr (ps : List DataPoint) (l1 l2 : String → Option ℚ)
    (d v : String) (h : l1 v = l2 v) :
    fillVal ps l1 d v = fillVal ps l2 d v := by
  unfold fillVal
  cases obsAt ps d v with
  | some x => rfl
  | none => rw [h]

theorem mergeLoop_rows (ps : List DataPoint) :
    ∀ (ds pre : List String) (lastV : String → Option ℚ),
      datesOf ps = pre ++ ds →
      (∀ v, lastV v = lastObsIn ps pre v) →
      ∀ dr ∈ mergeLoop ps ds lastV,
        dr.2 = rowFor ps (fun v => lastObsBefore ps dr.1 v) dr.1 := by
  intro ds
  induction ds with
  | nil =>
    intro pre lastV heq hinv dr hdr
    simp [mergeLoop] at hdr
  | cons d ds ih =>
    intro pre lastV heq hinv dr hdr
    rcases List.mem_cons.mp hdr with hEq | hmem
    · rw [hEq]
      show rowFor ps lastV d = rowFor ps (fun v => lastObsBefore ps d v) d
      unfold rowFor
      apply List.map_congr_left
      intro v _
      have hLv : lastV v = lastObsBefore ps d v := by
        rw [hinv v, lastObsBefore_eq_lastObsIn ps pre ds d v heq]
      exact congrArg (fun w => (v, w)) (fillVal_congr ps _ _ d v hLv)
    · apply ih (pre ++ [d]) (stepLast ps d lastV)
      · rw [heq, List.append_assoc]
        rfl
      · intro v
        rw [lastObsIn_snoc]
        unfold stepLast
        cases ho : obsAt ps d v with
        | some x => rfl
        | none => rw [hinv v]
      · exact hmem

theorem mergedRows_row (ps : List DataPoint) (d : String)
    (row : List (String × ℚ)) (h : (d, row) ∈ mergedRows ps) :
    row = rowFor ps (fun v => lastObsBefore ps d v) d := by
  have hbase : ∀ v, (fun _ => (none : Option ℚ)) v = lastObsIn ps [] v := by
    intro v
    rfl
  exact mergeLoop_rows ps (datesOf ps) [] (fun _ => none) rfl hbase (d, row) h

theorem lookup_graph (f : String → ℚ) (l : List String) (v : String)
    (hv : v ∈ l) :
    (l.map (fun u => (u, f u))).lookup v = some (f v) := by
  induction l with
  | nil => simp at hv
  | cons u us ih =>
    by_cases he : v = u
    · subst he
      simp [List.lookup]
    · have hmem : v ∈ us := by
        rcases List.mem_cons.mp hv with hcon | hx
        · exact absurd hcon he
        · exact hx
      have hb : (v == u) = false := beq_eq_false_iff_ne.mpr he
      simp [List.lookup, hb, ih hmem]

/-- C7: the aligner's fill rule: an observed value is used as-is; a
missing day gives a carry-forward variable its most recent prior
observed value (0 before the first observation, via `Option.getD 0`),
and gives every zero-fill variable (anything outside the forward-fill
set) the value 0, never a carried-forward value. -/
theorem mergedRows_fill (ps : List DataPoint) (d : String)
    (row : List (String × ℚ)) (v : String)
    (hrow : (d, row) ∈ mergedRows ps) (hv : v ∈ varsOf ps) :
    (∀ x, obsAt ps d v = some x → row.lookup v = some x) ∧
    (obsAt ps d v = none → v ∉ ffVars → row.lookup v = some 0) ∧
    (obsAt ps d v = none → v ∈ ffVars →
      row.lookup v = some ((lastObsBefore ps d v).getD 0)) := by
  have hr := mergedRows_row ps d row hrow
  have hl : row.lookup v =
      some (fillVal ps (fun u => lastObsBefore ps d u) d v) := by
    rw [hr]
    exact lookup_graph _ _ v hv
  refine ⟨?_, ?_, ?_⟩
  · intro x hx
    rw [hl]
    unfold fillVal
    rw [hx]
  · intro hnone hnff
    rw [hl]
    unfold fillVal
    rw [hnone]
    simp [hnff]
  · intro hnone hff
    rw [hl]
    unfold fillVal
    rw [hnone]
    simp [hff]

/-- A dataset with a one-day gap: `a_cost` (zero-fill) is observed only
on the first day and `net_sales` (carry-forward) only on the second. -/
def wPs : List DataPoint :=
  [⟨"2024-01-01", "a_cost", 5⟩, ⟨"2024-01-02", "net_sales", 7⟩]

theorem varsOf_wPs_eval : varsOf wPs = ["a_cost", "net_sales"] := by
  have hv : ("a_cost" : String) ≤ "net_sales" := by simp; decide
  simp [varsOf, wPs, List.insertionSort, List.orderedInsert, List.dedup,
    List.pwFilter, hv]

theorem mergedRows_wPs_eval : mergedRows wPs =
    [("2024-01-01", [("a_cost", 5), ("net_sales", 0)]),
     ("2024-01-02", [("a_cost", 0), ("net_sales", 7)])] := by
  have hc : ("2024-01-01" : String) ≤ "2024-01-02" := by simp; decide
  have hd : datesOf wPs = ["2024-01-01", "2024-01-02"] := by
    simp [datesOf, wPs, List.insertionSort, List.orderedInsert, List.dedup,
      List.pwFilter, hc]
  have o11 : obsAt wPs "2024-01-01" "a_cost" = some 5 := by decide
  have o12 : obsAt wPs "2024-01-01" "net_sales" = none := by decide
  have o21 : obsAt wPs "2024-01-02" "a_cost" = none := by decide
  have o22 : obsAt wPs "2024-01-02" "net_sales" = some 7 := by decide
  rw [mergedRows, hd]
  simp [mergeLoop, rowFor, varsOf_wPs_eval, fillVal, stepLast, ffVars,
    o11, o12, o21, o22]

theorem mergedRows_fill_witness :
    (("2024-01-02", [("a_cost", (0:ℚ)), ("net_sales", 7)]) ∈ mergedRows wPs) ∧
      ("a_cost" ∈ varsOf wPs) ∧
      obsAt wPs "2024-01-02" "a_cost" = none ∧
      ("a_cost" ∉ ffVars) ∧
      ([("a_cost", (0:ℚ)), ("net_sales", 7)] : List (String × ℚ)).lookup
        "a_cost" = some 0 := by
  have h1 : ("2024-01-02", [("a_cost", (0:ℚ)), ("net_sales", 7)]) ∈
      mergedRows wPs := by
    rw [mergedRows_wPs_eval]
    simp
  have h2 : "a_cost" ∈ varsOf wPs := by
    rw [varsOf_wPs_eval]
    decide
  have h3 : obsAt wPs "2024-01-02" "a_cost" = none := by decide
  have h4 : "a_cost" ∉ ffVars := by decide
  exact ⟨h1, h2, h3, h4,
    (mergedRows_fill wPs "2024-01-02" _ "a_cost" h1 h2).2.1 h3 h4⟩

theorem rowFor_keys (ps : List DataPoint) (lastV : String → Option ℚ)
    (d : String) : (rowFor ps lastV d).map Prod.fst = varsOf ps := by
  unfold rowFor
  rw [List.map_map]
  have hc : (Prod.fst ∘ fun v => (v, fillVal ps lastV d v)) = id := by
    funext v
    rfl
  rw [hc, List.map_id]

theorem mergeLoop_map_fst (ps : List DataPoint) :
    ∀ (ds : List String) (lastV : String → Option ℚ),
      (mergeLoop ps ds lastV).map Prod.fst = ds := by
  intro ds
  induction ds with
  | nil => intro lastV; rfl
  | cons d dsx ih =>
    intro lastV
    show d :: (mergeLoop ps dsx (stepLast ps d lastV)).map Prod.fst = d :: dsx
    rw [ih]

/-- C8: every aligner output satisfies the MergedRow invariant: the rows
are strictly ascending by date (no duplicates), every row carries
exactly the variable-key list `varsOf` (the union of the variables
observed in any source, each mapped to a numeric value), and `varsOf`
contains exactly the observed variables. -/
theorem mergedRows_invariant (ps : List DataPoint) :
    List.Sorted (fun a b => a < b) ((mergedRows ps).map Prod.fst) ∧
      (∀ dr ∈ mergedRows ps, dr.2.map Prod.fst = varsOf ps) ∧
      (∀ v, v ∈ varsOf ps ↔ ∃ p ∈ ps, p.key = v) := by
  refine ⟨?_, ?_, fun v => mem_varsOf ps v⟩
  · rw [mergedRows, mergeLoop_map_fst]
    have hs := datesOf_sorted ps
    have hn := datesOf_nodup ps
    exact (hs.and hn).imp (fun h => lt_of_le_of_ne h.1 h.2)
  · intro dr hdr
    have h := mergedRows_row ps dr.1 dr.2 (by rwa [Prod.mk.eta])
    rw [h]
    exact rowFor_keys ps _ dr.1

theorem mergedRows_invariant_witness :
    ([("a_cost", (5:ℚ)), ("net_sales", 0)] : List (String × ℚ)).map Prod.fst =
      varsOf wPs := by
  have h1 : ("2024-01-01", [("a_cost", (5:ℚ)), ("net_sales", 0)]) ∈
      mergedRows wPs := by
    rw [mergedRows_wPs_eval]
    simp
  exact (mergedRows_invariant wPs).2.1
    ("2024-01-01", [("a_cost", (5:ℚ)), ("net_sales", 0)]) h1

/-- C10: when several observations share the same `(date, variable)`
pair, the merged row holds the value of the one processed last in
iteration order — and exactly one binding for that variable — with no
error reported. -/
theorem merged_last_write_wins (ps : List DataPoint) (d v : String)
    (row : List (String × ℚ)) (q : DataPoint)
    (hrow : (d, row) ∈ mergedRows ps)
    (hlast : (ps.filter (fun p =>
      decide (p.date = d) && decide (p.key = v))).getLast? = some q) :
    row.lookup v = some q.value ∧ (row.map Prod.fst).count v = 1 := by
  have hqmem : q ∈ ps.filter (fun p =>
      decide (p.date = d) && decide (p.key = v)) :=
    List.mem_of_getLast?_eq_some hlast
  have hkq : q.key = v := by
    have hp := List.of_mem_filter hqmem
    simp only [Bool.and_eq_true, decide_eq_true_eq] at hp
    exact hp.2
  have hv : v ∈ varsOf ps :=
    (mem_varsOf ps v).mpr ⟨q, List.mem_of_mem_filter hqmem, hkq⟩
  have hobs : obsAt ps d v = some q.value := by
    rw [obsAt_eq_getLast, hlast]
    rfl
  have hr := mergedRows_row ps d row hrow
  have hl : row.lookup v =
      some (fillVal ps (fun u => lastObsBefore ps d u) d v) := by
    rw [hr]
    exact lookup_graph _ _ v hv
  constructor
  · rw [hl]
    unfold fillVal
    rw [hobs]
  · rw [hr, rowFor_keys]
    exact List.count_eq_one_of_mem (varsOf_nodup ps) hv

/-- Two observations on the same day for the same variable: the later
one (value 2) must win. -/
def wPs10 : List DataPoint :=
  [⟨"2024-01-01", "a_cost", 1⟩, ⟨"2024-01-01", "a_cost", 2⟩]

theorem merged_last_write_wins_witness :
    (("2024-01-01", [("a_cost", (2:ℚ))]) ∈ mergedRows wPs10) ∧
      ((wPs10.filter (fun p => decide (p.date = "2024-01-01") &&
        decide (p.key = "a_cost"))).getLast? =
        some ⟨"2024-01-01", "a_cost", 2⟩) ∧
      ([("a_cost", (2:ℚ))] : List (String × ℚ)).lookup "a_cost" = some 2 ∧
      (([("a_cost", (2:ℚ))] : List (String × ℚ)).map Prod.fst).count
        "a_cost" = 1 := by
  have h1 : ("2024-01-01", [("a_cost", (2:ℚ))]) ∈ mergedRows wPs10 := by
    decide
  have h2 : (wPs10.filter (fun p => decide (p.date = "2024-01-01") &&
      decide (p.key = "a_cost"))).getLast? =
      some ⟨"2024-01-01", "a_cost", 2⟩ := by decide
  exact ⟨h1, h2,
    (merged_last_write_wins wPs10 "2024-01-01" "a_cost" _ _ h1 h2).1,
    (merged_last_write_wins wPs10 "2024-01-01" "a_cost" _ _ h1 h2).2⟩

/-!
### C4 infrastructure: a zero spend column passes through the
elimination untouched

If column `j` of the design matrix is identically zero, then row `j`
and column `j` of the augmented normal-equations matrix are zero, stay
zero through every elimination step (the pivot search never selects the
zero row, and a zero factor leaves a row unchanged), and the returned
coefficient `β[j]` is exactly 0.
-/

theorem getD_set_cases (m : List (List ℚ)) (p i : ℕ) (x : List ℚ) :
    (m.set p x).getD i [] = m.getD i [] ∨ (m.set p x).getD i [] = x := by
  by_cases hpi : p = i
  · subst hpi
    by_cases hl : p < m.length
    · right
      rw [List.getD_eq_getElem?_getD, List.getElem?_set_self]
      · simp [hl]
      · exact hl
    · left
      rw [List.set_eq_of_length_le (le_of_not_lt hl)]
  · left
    rw [List.getD_eq_getElem?_getD, List.getElem?_set_ne hpi,
      ← List.getD_eq_getElem?_getD]

theorem getD_set_ne_row (m : List (List ℚ)) (p i : ℕ) (x : List ℚ)
    (h : p ≠ i) : (m.set p x).getD i [] = m.getD i [] := by
  rw [List.getD_eq_getElem?_getD, List.getElem?_set_ne h,
    ← List.getD_eq_getElem?_getD]

/-- Any row of `swapRows m a b` is a row of `m` or `[]`. -/
theorem swapRows_getD_cases (m : List (List ℚ)) (a b i : ℕ) :
    (swapRows m a b).getD i [] = m.getD i [] ∨
      (swapRows m a b).getD i [] = m.getD a [] ∨
      (swapRows m a b).getD i [] = m.getD b [] := by
  unfold swapRows
  rcases getD_set_cases (m.set a (m.getD b [])) b i (m.getD a []) with h | h
  · rcases getD_set_cases m a i (m.getD b []) with h2 | h2
    · left
      rw [h, h2]
    · right; right
      rw [h, h2]
  · right; left
    exact h

theorem swapRows_getD_ne (m : List (List ℚ)) (a b i : ℕ) (ha : a ≠ i)
    (hb : b ≠ i) : (swapRows m a b).getD i [] = m.getD i [] := by
  unfold swapRows
  rw [getD_set_ne_row _ b i _ hb, getD_set_ne_row _ a i _ ha]

/-- The pivot search never selects a row whose entry in the pivot
column is zero (the comparison is strict and the running maximum is an
absolute value). -/
theorem pivot_fold_ne (aug : List (List ℚ)) (col j : ℕ)
    (hz : (aug.getD j []).getD col 0 = 0) :
    ∀ (l : List ℕ) (acc : ℕ × ℚ), acc.1 ≠ j → 0 ≤ acc.2 →
      (l.foldl (fun acc row =>
        if |(aug.getD row []).getD col 0| > acc.2 then
          (row, |(aug.getD row []).getD col 0|)
        else acc) acc).1 ≠ j := by
  intro l
  induction l with
  | nil => intro acc h1 _; exact h1
  | cons r rs ih =>
    intro acc h1 h2
    show (rs.foldl _ (if |(aug.getD r []).getD col 0| > acc.2 then _ else acc)).1 ≠ j
    by_cases hr : |(aug.getD r []).getD col 0| > acc.2
    · rw [if_pos hr]
      apply ih
      · intro hcon
        have hrj : r = j := hcon
        rw [hrj, hz, abs_zero] at hr
        exact absurd (lt_of_le_of_lt h2 hr) (lt_irrefl _)
      · exact abs_nonneg _
    · rw [if_neg hr]
      exact ih acc h1 h2

theorem pivotRowIdx_ne (aug : List (List ℚ)) (col p j : ℕ) (hcj : col ≠ j)
    (hz : (aug.getD j []).getD col 0 = 0) :
    pivotRowIdx aug col p ≠ j := by
  unfold pivotRowIdx
  exact pivot_fold_ne aug col j hz _ _ hcj (abs_nonneg _)

/-- With a fully zero column the pivot search returns the starting row. -/
theorem pivot_fold_self (aug : List (List ℚ)) (col j : ℕ)
    (hcol : ∀ i, (aug.getD i []).getD col 0 = 0) :
    ∀ (l : List ℕ) (acc : ℕ × ℚ), acc.1 = j → 0 ≤ acc.2 →
      (l.foldl (fun acc row =>
        if |(aug.getD row []).getD col 0| > acc.2 then
          (row, |(aug.getD row []).getD col 0|)
        else acc) acc).1 = j := by
  intro l
  induction l with
  | nil => intro acc h1 _; exact h1
  | cons r rs ih =>
    intro acc h1 h2
    show (rs.foldl _ (if |(aug.getD r []).getD col 0| > acc.2 then _ else acc)).1 = j
    rw [hcol r] at *
    by_cases hr : |(0:ℚ)| > acc.2
    · rw [abs_zero] at hr
      exact absurd (lt_of_le_of_lt h2 hr) (lt_irrefl _)
    · rw [if_neg hr]
      exact ih acc h1 h2

theorem pivotRowIdx_self (aug : List (List ℚ)) (p j : ℕ)
    (hcol : ∀ i, (aug.getD i []).getD j 0 = 0) :
    pivotRowIdx aug j p = j := by
  unfold pivotRowIdx
  exact pivot_fold_self aug j j hcol _ _ rfl (abs_nonneg _)

theorem swapRows_colZero (m : List (List ℚ)) (a b j : ℕ)
    (hcol : ∀ i, (m.getD i []).getD j 0 = 0) :
    ∀ i, ((swapRows m a b).getD i []).getD j 0 = 0 := by
  intro i
  rcases swapRows_getD_cases m a b i with h | h | h <;> rw [h]
  · exact hcol i
  · exact hcol a
  · exact hcol b

theorem swapRows_rowZero_self (m : List (List ℚ)) (j : ℕ)
    (hrow : ∀ k, (m.getD j []).getD k 0 = 0) :
    ∀ k, ((swapRows m j j).getD j []).getD k 0 = 0 := by
  intro k
  rcases swapRows_getD_cases m j j j with h | h | h <;> rw [h] <;> exact hrow k

theorem elimStep_zero (p col j : ℕ) (aug : List (List ℚ))
    (hcol : ∀ i, (aug.getD i []).getD j 0 = 0)
    (hrow : ∀ k, (aug.getD j []).getD k 0 = 0) :
    (∀ i, ((elimStep p aug col).getD i []).getD j 0 = 0) ∧
      (∀ k, ((elimStep p aug col).getD j []).getD k 0 = 0) := by
  by_cases hcj : col = j
  · subst hcj
    have hpr : pivotRowIdx aug col p = col := pivotRowIdx_self aug p col hcol
    have hpv : ((swapRows aug col col).getD col []).getD col 0 = 0 :=
      swapRows_rowZero_self aug col hrow col
    simp only [elimStep, hpr, hpv, abs_zero]
    rw [if_pos (by norm_num : (0:ℚ) < 1/10^12)]
    exact ⟨swapRows_colZero aug col col col hcol,
      swapRows_rowZero_self aug col hrow⟩
  · have hpne : pivotRowIdx aug col p ≠ j :=
      pivotRowIdx_ne aug col p j hcj (hrow col)
    have hcol1 : ∀ i,
        ((swapRows aug col (pivotRowIdx aug col p)).getD i []).getD j 0 = 0 :=
      swapRows_colZero aug col (pivotRowIdx aug col p) j hcol
    have hrow1 : ∀ k,
        ((swapRows aug col (pivotRowIdx aug col p)).getD j []).getD k 0 = 0 := by
      rw [swapRows_getD_ne aug col (pivotRowIdx aug col p) j hcj hpne]
      exact hrow
    set A1 := swapRows aug col (pivotRowIdx aug col p) with hA1
    simp only [elimStep]
    rw [← hA1]
    by_cases hpv : |(A1.getD col []).getD col 0| < 1/10^12
    · rw [if_pos hpv]
      exact ⟨hcol1, hrow1⟩
    · rw [if_neg hpv]
      set pivot := (A1.getD col []).getD col 0 with hpivot
      set prow := mapIdxQ (fun j2 v => if col ≤ j2 then v / pivot else v) 0
        (A1.getD col []) with hprow
      have hprowj : prow.getD j 0 = 0 := by
        by_cases hlt : j < (A1.getD col []).length
        · rw [hprow, mapIdxQ_getD _ 0 j _ 0 hlt]
          simp only [Nat.zero_add]
          rw [hcol1 col]
          split
          · rw [zero_div]
          · rfl
        · rw [hprow]
          exact mapIdxQ_getD_ge _ 0 j _ 0 (le_of_not_lt hlt)
      set A2 := A1.set col prow with hA2
      have hcol2 : ∀ i, (A2.getD i []).getD j 0 = 0 := by
        intro i
        rcases getD_set_cases A1 col i prow with h | h <;> rw [hA2, h]
        · exact hcol1 i
        · exact hprowj
      have hrow2 : ∀ k, (A2.getD j []).getD k 0 = 0 := by
        intro k
        rw [hA2, getD_set_ne_row A1 col j prow hcj]
        exact hrow1 k
      constructor
      · intro i
        by_cases hi : i < A2.length
        · rw [mapIdxQ_getD _ 0 i _ [] hi]
          simp only [Nat.zero_add]
          by_cases hic : i = col
          · rw [if_pos hic]
            exact hcol2 i
          · rw [if_neg hic]
            by_cases hjl : j < (A2.getD i []).length
            · rw [mapIdxQ_getD _ 0 j _ 0 hjl]
              simp only [Nat.zero_add]
              rw [hcol2 i, hprowj]
              split
              · ring
              · rfl
            · exact mapIdxQ_getD_ge _ 0 j _ 0 (le_of_not_lt hjl)
        · rw [getD_ge _ i []
            (by rw [mapIdxQ_length]; exact le_of_not_lt hi)]
          rfl
      · by_cases hj2 : j < A2.length
        · rw [mapIdxQ_getD _ 0 j _ [] hj2]
          simp only [Nat.zero_add]
          rw [if_neg (fun h => hcj h.symm)]
          intro k
          by_cases hkl : k < (A2.getD j []).length
          · rw [mapIdxQ_getD _ 0 k _ 0 hkl]
            simp only [Nat.zero_add]
            rw [hrow2 k, hrow2 col]
            split
            · ring
            · rfl
          · exact mapIdxQ_getD_ge _ 0 k _ 0 (le_of_not_lt hkl)
        · intro k
          rw [getD_ge _ j []
            (by rw [mapIdxQ_length]; exact le_of_not_lt hj2)]
          rfl

theorem foldl_elim_zero (p j : ℕ) (l : List ℕ) :
    ∀ (aug : List (List ℚ)),
      (∀ i, (aug.getD i []).getD j 0 = 0) →
      (∀ k, (aug.getD j []).getD k 0 = 0) →
      (∀ i, ((l.foldl (elimStep p) aug).getD i []).getD j 0 = 0) ∧
        (∀ k, ((l.foldl (elimStep p) aug).getD j []).getD k 0 = 0) := by
  induction l with
  | nil => intro aug h1 h2; exact ⟨h1, h2⟩
  | cons c cs ih =>
    intro aug h1 h2
    have h := elimStep_zero p c j aug h1 h2
    exact ih (elimStep p aug c) h.1 h.2

theorem getD_map_range {α : Type} (g : ℕ → α) (n i : ℕ) (d : α)
    (h : i < n) : ((List.range n).map g).getD i d = g i := by
  rw [List.getD_eq_getElem?_getD, List.getElem?_map, List.getElem?_range h]
  rfl

theorem getD_map_range_ge {α : Type} (g : ℕ → α) (n i : ℕ) (d : α)
    (h : n ≤ i) : ((List.range n).map g).getD i d = d := by
  apply List.getD_eq_default
  simpa using h

theorem getD_map_rows (f : List ℚ → ℚ) (m : List (List ℚ)) (i : ℕ)
    (d : ℚ) (h : i < m.length) : (m.map f).getD i d = f (m.getD i []) := by
  rw [List.getD_eq_getElem?_getD, List.getElem?_map, List.getElem?_eq_getElem h]
  show f m[i] = f (m.getD i [])
  congr 1
  rw [List.getD_eq_getElem?_getD, List.getElem?_eq_getElem h]
  rfl

/-- Zero-column invariance of the whole solver: if column `j` of the
design matrix is identically zero (and `j` is a genuine column index),
the returned coefficient `β[j]` is exactly 0. -/
theorem olsRegression_zero_column (X : List (List ℚ)) (y : List ℚ) (j : ℕ)
    (hj : j < (X.headD []).length)
    (hX : ∀ k, (X.getD k []).getD j 0 = 0) :
    (olsRegression X y).getD j 0 = 0 := by
  simp only [olsRegression]
  set p := (X.headD []).length with hp
  set aug0 := (List.range p).map (fun i =>
    ((xtxOf X p).getD i []) ++ [(xtyOf X y p).getD i 0]) with haug0
  have hxtxlen : ∀ i, i < p → ((xtxOf X p).getD i []).length = p := by
    intro i hi
    rw [xtxOf, getD_map_range _ p i [] hi]
    simp
  have hxtx_at : ∀ i k, i < p → k < p →
      ((xtxOf X p).getD i []).getD k 0 =
        ((List.range X.length).map (fun r =>
          (X.getD r []).getD i 0 * (X.getD r []).getD k 0)).sum := by
    intro i k hi hk
    rw [xtxOf, getD_map_range _ p i [] hi, getD_map_range _ p k 0 hk]
  have hxty_at : ∀ i, i < p → (xtyOf X y p).getD i 0 =
      ((List.range X.length).map (fun r =>
        (X.getD r []).getD i 0 * y.getD r 0)).sum := by
    intro i hi
    rw [xtyOf, getD_map_range _ p i 0 hi]
  have hcol0 : ∀ i, (aug0.getD i []).getD j 0 = 0 := by
    intro i
    by_cases hi : i < p
    · rw [haug0, getD_map_range _ p i [] hi,
        List.getD_append _ _ _ _ (by rw [hxtxlen i hi]; exact hj),
        hxtx_at i j hi hj]
      apply List.sum_eq_zero
      intro x hx
      obtain ⟨r, -, rfl⟩ := List.mem_map.mp hx
      rw [hX r]
      ring
    · rw [haug0, getD_map_range_ge _ p i [] (le_of_not_lt hi)]
      rfl
  have hrow0 : ∀ k, (aug0.getD j []).getD k 0 = 0 := by
    intro k
    rw [haug0, getD_map_range _ p j [] hj]
    by_cases hk : k < p
    · rw [List.getD_append _ _ _ _ (by rw [hxtxlen j hj]; exact hk),
        hxtx_at j k hj hk]
      apply List.sum_eq_zero
      intro x hx
      obtain ⟨r, -, rfl⟩ := List.mem_map.mp hx
      rw [hX r]
      ring
    · by_cases hkp : k = p
      · subst hkp
        rw [List.getD_append_right _ _ _ _ (by rw [hxtxlen j hj])]
        rw [hxtxlen j hj, Nat.sub_self]
        show (xtyOf X y p).getD j 0 = 0
        rw [hxty_at j hj]
        apply List.sum_eq_zero
        intro x hx
        obtain ⟨r, -, rfl⟩ := List.mem_map.mp hx
        rw [hX r]
        ring
      · have hklarge : p + 1 ≤ k :=
          Nat.succ_le_of_lt (lt_of_le_of_ne (le_of_not_lt hk) (Ne.symm hkp))
        apply List.getD_eq_default
        rw [List.length_append, hxtxlen j hj]
        simpa using hklarge
  have hfin := foldl_elim_zero p j (List.range p) aug0 hcol0 hrow0
  set augF := (List.range p).foldl (elimStep p) aug0 with haugF
  by_cases hjF : j < augF.length
  · rw [getD_map_rows _ augF j 0 hjF]
    exact hfin.2 p
  · apply List.getD_eq_default
    rw [List.length_map]
    exact le_of_not_lt hjF

theorem getD_map_gen {α β : Type} (f : α → β) (m : List α) (i : ℕ)
    (dh : α) (d : β) (h : i < m.length) :
    (m.map f).getD i d = f (m.getD i dh) := by
  rw [List.getD_eq_getElem?_getD, List.getElem?_map, List.getElem?_eq_getElem h]
  show f m[i] = f (m.getD i dh)
  congr 1
  rw [List.getD_eq_getElem?_getD, List.getElem?_eq_getElem h]
  rfl

theorem olsRegression_nil (y : List ℚ) : olsRegression [] y = [] := rfl

/-- C4: for every dataset containing a channel whose spend is 0 on every
day, the fitted regression coefficient for that channel is exactly 0 and
the channel's reported contribution is 0. -/
theorem zero_spend_channel (rows : List MRow) (channels : List String)
    (depVar : String) (i : ℕ) (hi : i < channels.length)
    (hzero : ∀ r ∈ rows, lookupOr0 ((channels.getD i "") ++ "_cost") r = 0) :
    coeffAt rows channels depVar i = 0 ∧
      contribAt rows channels depVar i = 0 := by
  have hcoeff : coeffAt rows channels depVar i = 0 := by
    unfold coeffAt betaOf
    cases rows with
    | nil =>
      show (olsRegression (designOf [] channels) (yOf [] depVar)).getD (i+1) 0 = 0
      rw [show designOf [] channels = [] from rfl, olsRegression_nil]
      rfl
    | cons r0 rest =>
      apply olsRegression_zero_column
      · show i + 1 < ((designOf (r0 :: rest) channels).headD []).length
        simp only [designOf, List.map_cons, List.headD_cons, List.length_cons,
          List.length_map]
        exact Nat.succ_lt_succ hi
      · intro k
        by_cases hk : k < (r0 :: rest).length
        · rw [designOf, getD_map_gen _ _ k [] [] hk]
          show ((channels.map (fun ch =>
            lookupOr0 (ch ++ "_cost") ((r0 :: rest).getD k []))).getD i 0) = 0
          rw [getD_map_gen _ _ i "" 0 hi]
          apply hzero
          have hmem : (r0 :: rest).getD k [] ∈ (r0 :: rest) := by
            rw [List.getD_eq_getElem?_getD, List.getElem?_eq_getElem hk]
            exact List.getElem_mem hk
          exact hmem
        · have houter : ∀ (m : List (List ℚ)), m.length ≤ k →
              (m.getD k []).getD (i+1) 0 = 0 := by
            intro m hm
            rw [List.getD_eq_default _ _ hm]
            rfl
          apply houter
          rw [designOf, List.length_map]
          exact le_of_not_lt hk
  refine ⟨hcoeff, ?_⟩
  unfold contribAt rawContribAt
  rw [hcoeff, zero_mul, max_self, zero_mul]
  exact jround_eq_int 0 0 (by norm_num) (by norm_num)

def wRowsC4 : List MRow :=
  [[("a_cost", 1), ("b_cost", 0), ("net_sales", 2)],
   [("a_cost", 2), ("b_cost", 0), ("net_sales", 4)]]

theorem zero_spend_channel_witness :
    (1 < (["a", "b"] : List String).length) ∧
      (∀ r ∈ wRowsC4,
        lookupOr0 (((["a", "b"] : List String).getD 1 "") ++ "_cost") r = 0) ∧
      coeffAt wRowsC4 ["a", "b"] "net_sales" 1 = 0 ∧
      contribAt wRowsC4 ["a", "b"] "net_sales" 1 = 0 := by
  have h1 : 1 < (["a", "b"] : List String).length := by decide
  have h2 : ∀ r ∈ wRowsC4,
      lookupOr0 (((["a", "b"] : List String).getD 1 "") ++ "_cost") r = 0 := by
    decide
  exact ⟨h1, h2, (zero_spend_channel wRowsC4 ["a", "b"] "net_sales" 1 h1 h2).1,
    (zero_spend_channel wRowsC4 ["a", "b"] "net_sales" 1 h1 h2).2⟩

theorem estimateSaturation_const_spend_witness :
    (0 < 2) ∧ (0 < (1:ℚ)) ∧
      5 ≤ estimateSaturation (List.replicate 2 (1:ℚ)) [3, 4] (((2:ℕ) : ℚ) * 1) ∧
      estimateSaturation (List.replicate 2 (1:ℚ)) [3, 4] (((2:ℕ) : ℚ) * 1) ≤ 95 ∧
      estimateSaturation (List.replicate 2 (1:ℚ)) [3, 4] (((2:ℕ) : ℚ) * 1) ≠ 0 := by
  exact ⟨by norm_num, by norm_num,
    estimateSaturation_const_spend 2 1 [3, 4] (by norm_num) (by norm_num)⟩

theorem computeR2_zero_var_and_le_one_witness :
    (ssTotOf [1, 1] = 0 ∧ computeR2 [1, 1] [5, 5] = 0) ∧
      (ssTotOf [0, 1] ≠ 0 ∧ computeR2 [0, 1] [0, 0] ≤ 1) := by
  have hz : ssTotOf [1, 1] = 0 := by
    norm_num [ssTotOf, meanOf, List.range_succ]
  have hnz : ssTotOf [0, 1] ≠ 0 := by
    norm_num [ssTotOf, meanOf, List.range_succ]
  exact ⟨⟨hz, (computeR2_zero_var_and_le_one [1, 1] [5, 5]).1 hz⟩,
    ⟨hnz, (computeR2_zero_var_and_le_one [0, 1] [0, 0]).2 hnz⟩⟩
